import Mathlib

/-!
Verification of the `deps` dependency manager (a Go program).

The development shallowly embeds the program's source files:
  * `github.go`   — ref resolution against the GitHub API,
  * the lock-file / download / extraction file (`loadLockFile`,
    `saveLockFile`, `checkDependency`, `updateDependency`, `downloadRepo`,
    `extractTarball`, `getDepPath`),
  * the command file (`handleGet`, `handleCheck`, `handleInstall`,
    `handleUpdate`).

External effects are modelled explicitly:
  * the remote API is an oracle (`Env`): one function per endpoint, with the
    calls a run performs recorded in a trace;
  * the persisted lock file is a `Disk`: the initial byte content plus the
    ordered list of writes the run performs;
  * JSON encoding/decoding (`encoding/json`) is an oracle pair
    (`unmarshal` / `marshalIndent`) since its byte-level behaviour is
    library code, not code of this repository;
  * tar/gzip decoding is external; `extractTarball` consumes the already
    decoded list of tar headers (name, type flag, mode, byte content) and
    emits the list of filesystem syscalls the Go code performs, which a
    small filesystem model (`FS`) then executes.

Go strings are modelled as Lean `String`s; all operations go through
`String.data` (a list of characters).  The program only ever slices and
splits around ASCII delimiters, where Go's byte indexing and character
indexing agree.  Go's `panic` (out-of-range slice) is modelled by `Option`:
`none` aborts the run.
-/

/-! ## String helpers mirroring the Go standard library -/

/-- Go `s[:n]` on a string: defined only when `n ≤ len(s)`, else the program
panics (`none`). -/
def goStringSlice (s : String) (n : Nat) : Option String :=
  if n ≤ s.data.length then some (String.mk (s.data.take n)) else none

/-- Go `strings.Contains(s, c)` for a one-character needle. -/
def strContainsChar (s : String) (c : Char) : Bool :=
  s.data.contains c

/-- Go `strings.HasPrefix(s, pre)`. -/
def strStartsWith (s pre : String) : Bool :=
  pre.data.isPrefixOf s.data

/-- Go `strings.TrimPrefix(s, pre)`: removes `pre` when it is a prefix,
otherwise returns `s` unchanged. -/
def strTrimLeading (s pre : String) : String :=
  if pre.data.isPrefixOf s.data then String.mk (s.data.drop pre.data.length) else s

/-- Go `rootDir[:len(rootDir)-1]` (drop the final character). -/
def dropLastStr (s : String) : String :=
  String.mk s.data.dropLast

/-- Accumulator for `strSplitOnChar`. -/
def splitOnCharAux (c : Char) : List Char → List Char → List String
  | [], acc => [String.mk acc.reverse]
  | x :: xs, acc =>
    if x = c then String.mk acc.reverse :: splitOnCharAux c xs []
    else splitOnCharAux c xs (x :: acc)

/-- Go `strings.Split(s, sep)` for a one-character separator (the source
only ever splits on `"@"` and `"/"`). -/
def strSplitOnChar (s : String) (c : Char) : List String :=
  splitOnCharAux c s.data []

/-- One character of the regular-expression class `[a-f0-9]`. -/
def hexLowerChar (c : Char) : Bool :=
  (decide ('a' ≤ c) && decide (c ≤ 'f')) || (decide ('0' ≤ c) && decide (c ≤ '9'))

/-- Go `regexp.MatchString("^[a-f0-9]{40}$", s)`: exactly forty characters,
each lowercase hexadecimal. -/
def matchesSHAPattern (s : String) : Bool :=
  s.data.length == 40 && s.data.all hexLowerChar

/-! ## Path helpers mirroring Go `path/filepath` -/

/-- Segment processing inside Go `filepath.Clean`: drop empty and `.`
segments, resolve `..` lexically. -/
def cleanSegsAux (rooted : Bool) : List String → List String → List String
  | [], acc => acc.reverse
  | s :: rest, acc =>
    if s = "" || s = "." then cleanSegsAux rooted rest acc
    else if s = ".." then
      match acc with
      | [] => if rooted then cleanSegsAux rooted rest [] else cleanSegsAux rooted rest [".."]
      | a :: tl => if a = ".." then cleanSegsAux rooted rest (".." :: a :: tl)
                   else cleanSegsAux rooted rest tl
    else cleanSegsAux rooted rest (s :: acc)

/-- Go `filepath.Clean` on Unix paths. -/
def filepathClean (p : String) : String :=
  if p = "" then "." else
  let rooted := strStartsWith p "/"
  let segs := cleanSegsAux rooted (strSplitOnChar p '/') []
  let joined := String.intercalate "/" segs
  if rooted then "/" ++ joined
  else if joined = "" then "." else joined

/-- Go `filepath.Join(a, b)`: skip empty elements, join with `/`, clean. -/
def filepathJoin (a b : String) : String :=
  if a = "" then (if b = "" then "" else filepathClean b)
  else if b = "" then filepathClean a
  else filepathClean (a ++ "/" ++ b)

/-- Go `filepath.Dir`: everything up to and including the last separator,
cleaned (`.` when there is no separator). -/
def filepathDir (p : String) : String :=
  filepathClean (String.mk ((p.data.reverse.dropWhile (fun c => c ≠ '/')).reverse))

/-! ## Data model: lock file (`LockFile`, `Dependency`) -/

/-- Model of `type Dependency struct { Ref string; SHA string }` -/
structure Dependency where
  ref : String
  sha : String
deriving DecidableEq, Repr

/-- Model of `type LockFile struct { Dependencies map[string]Dependency }`.
The Go map is modelled as an association list; its order stands for the
(unspecified) iteration order of the map. -/
structure LockFile where
  dependencies : List (String × Dependency)
deriving DecidableEq, Repr

def emptyLockFile : LockFile := ⟨[]⟩

/-- Go map indexing `m[k]`. -/
def lookupDep : List (String × Dependency) → String → Option Dependency
  | [], _ => none
  | (k, v) :: rest, key => if k = key then some v else lookupDep rest key

/-- Go map assignment `m[k] = v`: replace the binding in place or append. -/
def insertDep : List (String × Dependency) → String → Dependency → List (String × Dependency)
  | [], k, v => [(k, v)]
  | (k', v') :: rest, k, v =>
    if k' = k then (k, v) :: rest else (k', v') :: insertDep rest k v

/-! ## The external world -/

/-- The persisted `.deps.lock` file: its initial content (`none` when the
file does not exist or cannot be read) and the ordered writes performed. -/
structure Disk where
  initial : Option String
  writes : List String
deriving DecidableEq, Repr

/-- Current byte content of `.deps.lock`. -/
def Disk.current (d : Disk) : Option String :=
  match d.writes.getLast? with
  | some s => some s
  | none => d.initial

/-- Model of `os.WriteFile(".deps.lock", data, 0644)`. -/
def diskWrite (d : Disk) (s : String) : Disk :=
  { d with writes := d.writes ++ [s] }

/-- Oracle for everything outside this repository's code: the four remote
API endpoints, `encoding/json`, and `os.Stat` existence checks.  A `none`
from an endpoint stands for any failure the Go code treats as an error for
that call (transport error, non-200 status, or undecodable body). -/
structure Env where
  /-- Model of `GET /repos/o/r` → the repository's default-branch name. -/
  defaultBranch : String → String → Option String
  /-- Model of `GET /repos/o/r/branches/b` → the branch tip commit SHA. -/
  branchSHA : String → String → String → Option String
  /-- Model of `GET /repos/o/r/git/refs/tags/t` → the tag's target SHA. -/
  tagSHA : String → String → String → Option String
  /-- Model of `downloadRepo owner repo sha repoURL` succeeded (tarball fetched with
  status 200 and extracted without error). -/
  download : String → String → String → String → Bool
  /-- Model of `json.Unmarshal data &lockFile`: the error (if any) and the value the
  target holds afterwards (possibly partially filled on error). -/
  unmarshal : String → Option String × LockFile
  /-- Model of `json.MarshalIndent(lockFile, "", "  ")` (cannot fail for this type). -/
  marshalIndent : LockFile → String
  /-- Model of `os.Stat(path)` does not report "does not exist". -/
  pathExists : String → Bool

/-! ## github.go -/

/-- One HTTP request made by the resolver. -/
inductive RemoteCall where
  | repoMeta (owner repo : String)
  | branch (owner repo name : String)
  | tagRef (owner repo name : String)
deriving DecidableEq, Repr

/-- Model of `func parseGitHubURL(url string) (owner, repo string, err error)`:
the regular expression `^github\.com/([^/]+)/([^/]+)/?$`. -/
def parseGitHubURL (url : String) : Except String (String × String) :=
  match strSplitOnChar url '/' with
  | ["github.com", owner, repo] =>
    if owner ≠ "" ∧ repo ≠ "" then Except.ok (owner, repo)
    else Except.error "invalid GitHub URL format"
  | ["github.com", owner, repo, ""] =>
    if owner ≠ "" ∧ repo ≠ "" then Except.ok (owner, repo)
    else Except.error "invalid GitHub URL format"
  | _ => Except.error "invalid GitHub URL format"

/-- Model of `func parseGitHubSpec(spec string) (repoURL, ref string, err error)`. -/
def parseGitHubSpec (spec : String) : Except String (String × String) :=
  match strSplitOnChar spec '@' with
  | [p] => Except.ok (p, "")
  | [p1, p2] => Except.ok (p1, p2)
  | _ => Except.error "invalid spec format"

/-- Model of `func getLatestCommitSHA(owner, repo string)`: repository-metadata call
for the default branch, then a branch call for its tip. -/
def getLatestCommitSHA (env : Env) (owner repo : String) :
    Except String (String × String) × List RemoteCall :=
  match env.defaultBranch owner repo with
  | none => (Except.error "GitHub API error on repo metadata", [RemoteCall.repoMeta owner repo])
  | some db =>
    match env.branchSHA owner repo db with
    | none => (Except.error "GitHub API error on default branch",
               [RemoteCall.repoMeta owner repo, RemoteCall.branch owner repo db])
    | some sha => (Except.ok (sha, db),
                   [RemoteCall.repoMeta owner repo, RemoteCall.branch owner repo db])

/-- Model of `func getBranchCommitSHA(owner, repo, branch string)`. -/
def getBranchCommitSHA (env : Env) (owner repo branch : String) :
    Except String (String × String) × List RemoteCall :=
  match env.branchSHA owner repo branch with
  | none => (Except.error "branch not found", [RemoteCall.branch owner repo branch])
  | some sha => (Except.ok (sha, branch), [RemoteCall.branch owner repo branch])

/-- Model of `func getTagCommitSHA(owner, repo, tag string)`. -/
def getTagCommitSHA (env : Env) (owner repo tag : String) :
    Except String String × List RemoteCall :=
  match env.tagSHA owner repo tag with
  | none => (Except.error "tag not found", [RemoteCall.tagRef owner repo tag])
  | some sha => (Except.ok sha, [RemoteCall.tagRef owner repo tag])

/-- Model of `func resolveRef(owner, repo, ref string) (sha, resolvedRef string, err error)`:
empty ref → default branch; forty lowercase hex characters → already
resolved; otherwise branch lookup, then tag lookup, then failure. -/
def resolveRef (env : Env) (owner repo ref : String) :
    Except String (String × String) × List RemoteCall :=
  if ref = "" then getLatestCommitSHA env owner repo
  else if matchesSHAPattern ref then (Except.ok (ref, ref), [])
  else
    match getBranchCommitSHA env owner repo ref with
    | (Except.ok (sha, resolvedRef), t) => (Except.ok (sha, resolvedRef), t)
    | (Except.error _, t1) =>
      match getTagCommitSHA env owner repo ref with
      | (Except.ok sha, t2) => (Except.ok (sha, ref), t1 ++ t2)
      | (Except.error _, t2) =>
        (Except.error ("could not resolve ref " ++ ref ++ " as branch or tag"), t1 ++ t2)

/-! ## Lock file store and per-dependency operations -/

/-- Model of `func loadLockFile() *LockFile`: a missing (or unreadable) file yields
the empty lock file; an unmarshal error yields a *fresh* empty lock file —
the partially filled target is discarded — together with a printed warning
(the returned `Bool`). -/
def loadLockFile (unmarshal : String → Option String × LockFile) (file : Option String) :
    LockFile × Bool :=
  match file with
  | none => (emptyLockFile, false)
  | some data =>
    match unmarshal data with
    | (some _, _) => (emptyLockFile, true)
    | (none, lockFile) => (lockFile, false)

/-- Model of `func saveLockFile(lockFile *LockFile) error`: marshal and write
`.deps.lock` (marshalling cannot fail for this type; the write is recorded
on the `Disk`). -/
def saveLockFile (env : Env) (d : Disk) (lockFile : LockFile) : Disk :=
  diskWrite d (env.marshalIndent lockFile)

/-- Model of `func getDepPath(repoURL string) string`. -/
def getDepPath (repoURL : String) : String :=
  filepathJoin ".deps" repoURL

/-- Model of `func checkDependency(repoURL string, dep Dependency) (string, error)`:
"missing" when `os.Stat` reports not-exist, otherwise "ok"; the error
result is always `nil` in the source. -/
def checkDependency (env : Env) (repoURL : String) (_dep : Dependency) :
    String × Option String :=
  if env.pathExists (getDepPath repoURL) then ("ok", none) else ("missing", none)

/-- Model of `func downloadRepo(owner, repo, sha, repoURL string) error`: fetch the
tarball at `sha` and extract it to `getDepPath repoURL`.  The network fetch
and the byte-level extraction are collapsed into the `download` oracle;
the pure extraction logic itself is modelled separately by
`extractTarball` below. -/
def downloadRepo (env : Env) (owner repo sha repoURL : String) : Bool :=
  env.download owner repo sha repoURL

/-- Per-dependency report lines printed by the commands. -/
inductive Report where
  | checkOk (url ref sha8 : String)
  | checkMissing (url : String)
  | checkErr (url : String)
  | alreadyInstalled (url ref sha8 : String)
  | installing (url ref sha8 : String)
  | installErrParse (url : String)
  | installErrDownload (url : String)
  | installed (url ref sha8 : String)
  | updParseErr (url : String)
  | updResolveErr (url ref : String)
  | noUpdate (url ref sha8 : String)
  | updAvailable (url cur8 ref new8 newRef : String)
  | updDownloadErr (url : String)
  | updated (url newRef new8 : String)
deriving DecidableEq, Repr

/-- Model of `func updateDependency(repoURL string, dep Dependency, lockFile *LockFile) bool`:
re-resolve `dep.Ref`; on an unchanged SHA print "no update available"
(slicing `dep.SHA[:8]`!); on a change print both SHAs sliced, download at
the new SHA, and on success write the new entry into the lock file and
return `true`.  `none` models a Go panic from an out-of-range slice.
Result: `(changed, lockFile, reports, downloads)`. -/
def updateDependency (env : Env) (repoURL : String) (dep : Dependency) (lockFile : LockFile) :
    Option (Bool × LockFile × List Report × List (String × String × String × String)) :=
  match parseGitHubURL repoURL with
  | Except.error _ => some (false, lockFile, [Report.updParseErr repoURL], [])
  | Except.ok (owner, repo) =>
    match (resolveRef env owner repo dep.ref).1 with
    | Except.error _ => some (false, lockFile, [Report.updResolveErr repoURL dep.ref], [])
    | Except.ok (currentSHA, currentRef) =>
      if currentSHA = dep.sha then
        match goStringSlice dep.sha 8 with
        | none => none
        | some s8 => some (false, lockFile, [Report.noUpdate repoURL dep.ref s8], [])
      else
        match goStringSlice dep.sha 8 with
        | none => none
        | some cur8 =>
          match goStringSlice currentSHA 8 with
          | none => none
          | some new8 =>
            if downloadRepo env owner repo currentSHA repoURL then
              some (true,
                    ⟨insertDep lockFile.dependencies repoURL ⟨dep.ref, currentSHA⟩⟩,
                    [Report.updAvailable repoURL cur8 dep.ref new8 currentRef,
                     Report.updated repoURL currentRef new8],
                    [(owner, repo, currentSHA, repoURL)])
            else
              some (false, lockFile,
                    [Report.updAvailable repoURL cur8 dep.ref new8 currentRef,
                     Report.updDownloadErr repoURL],
                    [(owner, repo, currentSHA, repoURL)])

/-! ## Command handlers -/

/-- How a command invocation ends: normal return, `os.Exit(1)`, or a Go
panic. -/
inductive CmdResult where
  | completed
  | fatalExit
  | panicked
deriving DecidableEq, Repr

/-- Observable outcome of one command invocation. -/
structure CmdOut where
  outcome : CmdResult
  lockFile : LockFile
  disk : Disk
  downloads : List (String × String × String × String)
  reports : List Report
deriving DecidableEq, Repr

/-- Model of `func handleGet(repoSpec string)`: parse, resolve (slicing `sha[:8]`
for the "Resolved to" line), download, and only then load the lock file,
upsert the entry, and save. -/
def handleGet (env : Env) (disk : Disk) (repoSpec : String) : CmdOut :=
  match parseGitHubSpec repoSpec with
  | Except.error _ => ⟨CmdResult.fatalExit, emptyLockFile, disk, [], []⟩
  | Except.ok (repoURL, ref) =>
    match parseGitHubURL repoURL with
    | Except.error _ => ⟨CmdResult.fatalExit, emptyLockFile, disk, [], []⟩
    | Except.ok (owner, repo) =>
      match (resolveRef env owner repo ref).1 with
      | Except.error _ => ⟨CmdResult.fatalExit, emptyLockFile, disk, [], []⟩
      | Except.ok (sha, resolvedRef) =>
        match goStringSlice sha 8 with
        | none => ⟨CmdResult.panicked, emptyLockFile, disk, [], []⟩
        | some _ =>
          if downloadRepo env owner repo sha repoURL then
            match loadLockFile env.unmarshal disk.current with
            | (lockFile0, _) =>
              let originalRef := if ref = "" then resolvedRef else ref
              let lockFile : LockFile :=
                ⟨insertDep lockFile0.dependencies repoURL ⟨originalRef, sha⟩⟩
              ⟨CmdResult.completed, lockFile, saveLockFile env disk lockFile,
               [(owner, repo, sha, repoURL)], []⟩
          else ⟨CmdResult.fatalExit, emptyLockFile, disk, [(owner, repo, sha, repoURL)], []⟩

/-- Loop body of `handleCheck`: "ok" entries slice `dep.SHA[:8]` (panic on
a short SHA); "missing" entries are reported without slicing. -/
def checkLoop (env : Env) : List (String × Dependency) → Bool → List Report →
    CmdResult × Bool × List Report
  | [], allGood, reps => (CmdResult.completed, allGood, reps)
  | (url, dep) :: rest, allGood, reps =>
    match checkDependency env url dep with
    | (_, some _) => checkLoop env rest false (reps ++ [Report.checkErr url])
    | (status, none) =>
      if status = "ok" then
        match goStringSlice dep.sha 8 with
        | none => (CmdResult.panicked, allGood, reps)
        | some s8 => checkLoop env rest allGood (reps ++ [Report.checkOk url dep.ref s8])
      else checkLoop env rest false (reps ++ [Report.checkMissing url])

/-- Model of `func handleCheck()`. -/
def handleCheck (env : Env) (disk : Disk) : CmdOut :=
  match loadLockFile env.unmarshal disk.current with
  | (lockFile, _) =>
    if lockFile.dependencies = [] then ⟨CmdResult.completed, lockFile, disk, [], []⟩
    else
      match checkLoop env lockFile.dependencies true [] with
      | (r, _, reps) => ⟨r, lockFile, disk, [], reps⟩

/-- Loop body of `handleInstall`: both the already-installed line and the
"Installing" line slice `dep.SHA[:8]`; per-entry parse/download failures
are reported and the loop continues. -/
def installLoop (env : Env) : List (String × Dependency) →
    List (String × String × String × String) → List Report →
    CmdResult × List (String × String × String × String) × List Report
  | [], dls, reps => (CmdResult.completed, dls, reps)
  | (url, dep) :: rest, dls, reps =>
    match checkDependency env url dep with
    | (_, some _) => installLoop env rest dls (reps ++ [Report.checkErr url])
    | (status, none) =>
      if status = "ok" then
        match goStringSlice dep.sha 8 with
        | none => (CmdResult.panicked, dls, reps)
        | some s8 => installLoop env rest dls (reps ++ [Report.alreadyInstalled url dep.ref s8])
      else
        match goStringSlice dep.sha 8 with
        | none => (CmdResult.panicked, dls, reps)
        | some s8 =>
          match parseGitHubURL url with
          | Except.error _ =>
            installLoop env rest dls
              (reps ++ [Report.installing url dep.ref s8, Report.installErrParse url])
          | Except.ok (owner, repo) =>
            if downloadRepo env owner repo dep.sha url then
              installLoop env rest (dls ++ [(owner, repo, dep.sha, url)])
                (reps ++ [Report.installing url dep.ref s8, Report.installed url dep.ref s8])
            else
              installLoop env rest (dls ++ [(owner, repo, dep.sha, url)])
                (reps ++ [Report.installing url dep.ref s8, Report.installErrDownload url])

/-- Model of `func handleInstall()`: fetches missing entries at their recorded SHA;
contains no lock-file mutation and no `saveLockFile` call. -/
def handleInstall (env : Env) (disk : Disk) : CmdOut :=
  match loadLockFile env.unmarshal disk.current with
  | (lockFile, _) =>
    if lockFile.dependencies = [] then ⟨CmdResult.completed, lockFile, disk, [], []⟩
    else
      match installLoop env lockFile.dependencies [] [] with
      | (r, dls, reps) => ⟨r, lockFile, disk, dls, reps⟩

/-- Loop body of `handleUpdate` over all dependencies: thread the lock
file through `updateDependency`, or-ing the `updated` flag. -/
def updateLoop (env : Env) : List (String × Dependency) → LockFile → Bool →
    List Report → List (String × String × String × String) →
    Option (Bool × LockFile × List Report × List (String × String × String × String))
  | [], lockFile, updated, reps, dls => some (updated, lockFile, reps, dls)
  | (url, dep) :: rest, lockFile, updated, reps, dls =>
    match updateDependency env url dep lockFile with
    | none => none
    | some (c, lockFile', reps', dls') =>
      updateLoop env rest lockFile' (updated || c) (reps ++ reps') (dls ++ dls')

/-- Model of `func handleUpdate(specificRepo string)`: empty lock file → report and
return; a named repo missing from the lock file → `os.Exit(1)`; otherwise
update the target(s) and save the lock file only when something changed. -/
def handleUpdate (env : Env) (disk : Disk) (specificRepo : String) : CmdOut :=
  match loadLockFile env.unmarshal disk.current with
  | (lockFile, _) =>
    if lockFile.dependencies = [] then ⟨CmdResult.completed, lockFile, disk, [], []⟩
    else
      if specificRepo ≠ "" then
        match lookupDep lockFile.dependencies specificRepo with
        | none => ⟨CmdResult.fatalExit, lockFile, disk, [], []⟩
        | some dep =>
          match updateDependency env specificRepo dep lockFile with
          | none => ⟨CmdResult.panicked, lockFile, disk, [], []⟩
          | some (updated, lockFile', reps, dls) =>
            if updated then
              ⟨CmdResult.completed, lockFile', saveLockFile env disk lockFile', dls, reps⟩
            else ⟨CmdResult.completed, lockFile', disk, dls, reps⟩
      else
        match updateLoop env lockFile.dependencies lockFile false [] [] with
        | none => ⟨CmdResult.panicked, lockFile, disk, [], []⟩
        | some (updated, lockFile', reps, dls) =>
          if updated then
            ⟨CmdResult.completed, lockFile', saveLockFile env disk lockFile', dls, reps⟩
          else ⟨CmdResult.completed, lockFile', disk, dls, reps⟩

/-! ## Tarball extraction (`func extractTarball`) -/

/-- The tar entry types the source distinguishes (`tar.TypeDir`,
`tar.TypeReg`, `tar.TypeXGlobalHeader`); everything else falls through the
`switch` untouched. -/
inductive TypeFlag where
  | dir
  | reg
  | xGlobalHeader
  | other
deriving DecidableEq, Repr

/-- One decoded tar header together with the entry's byte content (the
bytes `io.Copy` would read for a regular file). -/
structure TarHeader where
  name : String
  typeflag : TypeFlag
  mode : Nat
  content : String
deriving DecidableEq, Repr

/-- A filesystem syscall performed by `extractTarball`:
`os.RemoveAll`, `os.MkdirAll`, or
`os.OpenFile(target, os.O_CREATE|os.O_WRONLY, mode)` followed by
`io.Copy` of `content` (note: no `O_TRUNC`). -/
inductive FSAction where
  | removeAll (path : String)
  | mkdirAll (path : String) (mode : Nat)
  | openWrite (path : String) (mode : Nat) (content : String)
deriving DecidableEq, Repr

/-- The extraction loop, threading the detected `rootDir` exactly as the
source does: skip pax/global headers; detect the wrapper from the first
entry whose name contains `/` and whose first segment contains `-`; skip
the wrapper's own directory entry; skip entries not under the wrapper;
strip the wrapper and write the entry under `destPath`. -/
def extractLoop (destPath : String) : String → List TarHeader → List FSAction
  | _, [] => []
  | rootDir0, header :: rest =>
    if header.typeflag = TypeFlag.xGlobalHeader || header.name = "pax_global_header" then
      extractLoop destPath rootDir0 rest
    else
      let rootDir :=
        if rootDir0 = "" && strContainsChar header.name '/' then
          match strSplitOnChar header.name '/' with
          | [] => rootDir0
          | p :: _ => if strContainsChar p '-' then p ++ "/" else rootDir0
        else rootDir0
      if header.typeflag = TypeFlag.dir && rootDir ≠ "" && header.name = dropLastStr rootDir then
        extractLoop destPath rootDir rest
      else if rootDir = "" || !strStartsWith header.name rootDir then
        extractLoop destPath rootDir rest
      else
        let name := strTrimLeading header.name rootDir
        if name = "" then extractLoop destPath rootDir rest
        else
          let target := filepathJoin destPath name
          (match header.typeflag with
           | TypeFlag.dir => [FSAction.mkdirAll target header.mode]
           | TypeFlag.reg => [FSAction.mkdirAll (filepathDir target) 0o755,
                              FSAction.openWrite target header.mode header.content]
           | _ => []) ++ extractLoop destPath rootDir rest

/-- Model of `func extractTarball(r io.Reader, destPath string) error`: remove the
destination, recreate it, then run the loop with no wrapper detected yet. -/
def extractTarball (r : List TarHeader) (destPath : String) : List FSAction :=
  FSAction.removeAll destPath :: FSAction.mkdirAll destPath 0o755 ::
    extractLoop destPath "" r

/-- What the loop does to a single entry once the wrapper `rootDir` has
been detected (specification-side restatement of one iteration; the
theorems prove the loop equal to `flatMap` of this function). -/
def entryActions (destPath rootDir : String) (header : TarHeader) : List FSAction :=
  if header.typeflag = TypeFlag.xGlobalHeader || header.name = "pax_global_header" then []
  else if header.typeflag = TypeFlag.dir && rootDir ≠ "" && header.name = dropLastStr rootDir then []
  else if rootDir = "" || !strStartsWith header.name rootDir then []
  else if strTrimLeading header.name rootDir = "" then []
  else
    match header.typeflag with
    | TypeFlag.dir => [FSAction.mkdirAll (filepathJoin destPath (strTrimLeading header.name rootDir)) header.mode]
    | TypeFlag.reg => [FSAction.mkdirAll (filepathDir (filepathJoin destPath (strTrimLeading header.name rootDir))) 0o755,
                       FSAction.openWrite (filepathJoin destPath (strTrimLeading header.name rootDir)) header.mode header.content]
    | _ => []

/-! ## Filesystem semantics for the emitted actions -/

/-- Path `q` equals `root` or lies strictly below it. -/
def underPath (root q : String) : Bool :=
  q = root || strStartsWith q (root ++ "/")

/-- Directories as a set of paths; files as `(path, content, mode)`. -/
structure FS where
  dirs : List String
  files : List (String × String × Nat)
deriving DecidableEq, Repr

def FS.empty : FS := ⟨[], []⟩

def lookupFile : List (String × String × Nat) → String → Option (String × Nat)
  | [], _ => none
  | (p, c, m) :: rest, q => if p = q then some (c, m) else lookupFile rest q

def setFileContent : List (String × String × Nat) → String → String →
    List (String × String × Nat)
  | [], _, _ => []
  | (p, c, m) :: rest, q, newC =>
    if p = q then (p, newC, m) :: rest else (p, c, m) :: setFileContent rest q newC

def addDir (dirs : List String) (p : String) : List String :=
  if p ∈ dirs then dirs else dirs ++ [p]

/-- The chain `p`, `Dir p`, `Dir (Dir p)`, … that `os.MkdirAll` creates
(fuel-bounded; `Dir` strictly shortens a path until `/`, `.` or ``). -/
def ancestorsAux : Nat → String → List String
  | 0, _ => []
  | n + 1, p =>
    if p = "/" || p = "." || p = "" then [] else p :: ancestorsAux n (filepathDir p)

def mkdirPaths (p : String) : List String :=
  ancestorsAux (p.data.length + 1) p

/-- Execute one syscall.  `openWrite` mirrors
`os.OpenFile(target, O_CREATE|O_WRONLY, mode)` + `io.Copy`: a fresh file
gets the content and the mode; an existing file keeps its mode and its
old bytes beyond the written length (no `O_TRUNC`). -/
def FS.applyAction (fs : FS) : FSAction → FS
  | FSAction.removeAll p =>
    ⟨fs.dirs.filter (fun d => !underPath p d), fs.files.filter (fun f => !underPath p f.1)⟩
  | FSAction.mkdirAll p _ => ⟨(mkdirPaths p).foldl addDir fs.dirs, fs.files⟩
  | FSAction.openWrite p m c =>
    match lookupFile fs.files p with
    | some (old, _) => ⟨fs.dirs, setFileContent fs.files p (c ++ String.mk (old.data.drop c.data.length))⟩
    | none => ⟨fs.dirs, fs.files ++ [(p, c, m)]⟩

def applyActions (fs : FS) (acts : List FSAction) : FS :=
  acts.foldl FS.applyAction fs

/-! ## Decidability helper and concrete fixtures -/

instance exceptDecEq {ε : Type u} {α : Type v} [DecidableEq ε] [DecidableEq α] :
    DecidableEq (Except ε α) := fun x y =>
  match x, y with
  | Except.ok a, Except.ok b =>
    if h : a = b then isTrue (by rw [h]) else isFalse (fun he => by cases he; exact h rfl)
  | Except.error a, Except.error b =>
    if h : a = b then isTrue (by rw [h]) else isFalse (fun he => by cases he; exact h rfl)
  | Except.ok _, Except.error _ => isFalse (fun he => by cases he)
  | Except.error _, Except.ok _ => isFalse (fun he => by cases he)

/-- A forty-character lowercase hex commit identifier. -/
def shaA : String := "0123456789abcdef0123456789abcdef01234567"

/-- A different forty-character commit identifier (a moved branch tip). -/
def shaB : String := "aaaa456789abcdef0123456789abcdef01234567"

/-- A one-entry lock file recording `github.com/a/b@main` at `shaA`. -/
def lockA : LockFile := ⟨[("github.com/a/b", ⟨"main", shaA⟩)]⟩

/-- A lock file whose entry records a SHA shorter than eight characters. -/
def lockShort : LockFile := ⟨[("github.com/a/b", ⟨"main", "abc"⟩)]⟩

/-- Baseline test world: branch `main` resolves to `shaA`, no tags,
downloads succeed, the persisted lock file parses to `lockA`, nothing is
materialized on disk yet. -/
def envA : Env :=
  { defaultBranch := fun _ _ => some "main"
    branchSHA := fun _ _ b => if b = "main" then some shaA else none
    tagSHA := fun _ _ _ => none
    download := fun _ _ _ _ => true
    unmarshal := fun _ => (none, lockA)
    marshalIndent := fun _ => "LOCK"
    pathExists := fun _ => false }

/-- World where the remote branch tip moved to `shaB`. -/
def envB : Env := { envA with branchSHA := fun _ _ b => if b = "main" then some shaB else none }

/-- World where `v1.0` exists only as a tag. -/
def envTag : Env :=
  { envA with
    branchSHA := fun _ _ _ => none
    tagSHA := fun _ _ t => if t = "v1.0" then some shaA else none }

/-- World whose persisted lock file parses to `lockShort` (nothing
materialized). -/
def envShortMiss : Env := { envA with unmarshal := fun _ => (none, lockShort) }

/-- World whose persisted lock file parses to `lockShort` and every
materialized path exists. -/
def envShortAll : Env := { envShortMiss with pathExists := fun _ => true }

/-- World whose persisted lock file parses to the empty lock file. -/
def envEmptyLF : Env := { envA with unmarshal := fun _ => (none, emptyLockFile) }

/-- An unmarshal oracle that fails, leaving the target partially filled. -/
def unmarshalBad : String → Option String × LockFile :=
  fun _ => (some "unexpected end of JSON input", ⟨[("k", ⟨"r", "s"⟩)]⟩)

/-- A disk whose `.deps.lock` exists with some prior content. -/
def diskA : Disk := ⟨some "{}", []⟩

/-- A lock file whose entry has a short SHA and an unparsable URL. -/
def lockBadURL : LockFile := ⟨[("bad-url", ⟨"main", "abc"⟩)]⟩

/-- World with the short-SHA lock file and a remote where no branch and
no tag resolves. -/
def envShortNoRemote : Env := { envShortMiss with branchSHA := fun _ _ _ => none }

/-- World whose persisted lock file parses to `lockBadURL`. -/
def envShortBadURL : Env := { envA with unmarshal := fun _ => (none, lockBadURL) }

/-- Download set each lock-file entry contributes during `install`:
nothing when its materialized path exists or its URL does not parse,
otherwise one fetch at the entry's recorded SHA. -/
def installDownloadsOf (env : Env) (e : String × Dependency) :
    List (String × String × String × String) :=
  if env.pathExists (getDepPath e.1) then []
  else match parseGitHubURL e.1 with
    | Except.error _ => []
    | Except.ok (owner, repo) => [(owner, repo, e.2.sha, e.1)]

/-- Per-key failure line `updateDependency` prints for an entry whose URL
does not parse or whose ref does not resolve. -/
def updateFailReport (url ref : String) : List Report :=
  match parseGitHubURL url with
  | Except.error _ => [Report.updParseErr url]
  | Except.ok _ => [Report.updResolveErr url ref]

/-- Boolean test used to state when `update` reaches the SHA-slicing code
for an entry: its URL parses and its ref resolves against the remote. -/
def resolveOk (env : Env) (url ref : String) : Bool :=
  match parseGitHubURL url with
  | Except.error _ => false
  | Except.ok (owner, repo) =>
    match (resolveRef env owner repo ref).1 with
    | Except.error _ => false
    | Except.ok _ => true

/-- Boolean test: processing this entry during `update` actually changes
its recorded identifier (URL parses, ref resolves to a different SHA, and
the download succeeds). -/
def changedB (env : Env) (e : String × Dependency) : Bool :=
  match parseGitHubURL e.1 with
  | Except.error _ => false
  | Except.ok (owner, repo) =>
    match (resolveRef env owner repo e.2.ref).1 with
    | Except.error _ => false
    | Except.ok (sha', _) => !(sha' == e.2.sha) && env.download owner repo sha' e.1

/-- Boolean test: the remote is unchanged for this entry (URL parses, ref
resolves to exactly the recorded SHA) and the recorded SHA is long enough
to slice. -/
def unchangedB (env : Env) (e : String × Dependency) : Bool :=
  match parseGitHubURL e.1 with
  | Except.error _ => false
  | Except.ok (owner, repo) =>
    match (resolveRef env owner repo e.2.ref).1 with
    | Except.error _ => false
    | Except.ok (sha', _) => (sha' == e.2.sha) && decide (8 ≤ e.2.sha.length)

/-- Entries one `update` invocation targets: the whole Ledger, or the
single named entry when a repo URL argument was given. -/
def targetsOf (lf : LockFile) (specificRepo : String) : List (String × Dependency) :=
  if specificRepo = "" then lf.dependencies
  else
    match lookupDep lf.dependencies specificRepo with
    | some dep => [(specificRepo, dep)]
    | none => []

/-! ## C1 — commit identifiers resolve to themselves without I/O -/

/-- C1: for every remote world, owner, repo, and every ref matching forty
lowercase hexadecimal characters, `resolveRef` returns the ref unchanged as
both the content identifier and the canonical ref, performs no remote call
(empty trace), and does not fail. -/
theorem resolveRef_commit_identifier (env : Env) (owner repo ref : String)
    (h : matchesSHAPattern ref = true) :
    resolveRef env owner repo ref = (Except.ok (ref, ref), []) := by
  have hne : ref ≠ "" := by
    intro he
    subst he
    exact absurd h (by decide)
  unfold resolveRef
  rw [if_neg hne, if_pos h]

/-- Witness for C1 at a concrete forty-hex ref. -/
theorem resolveRef_commit_identifier_witness :
    matchesSHAPattern shaA = true ∧
      resolveRef envA "a" "b" shaA = (Except.ok (shaA, shaA), []) :=
  ⟨by decide, resolveRef_commit_identifier envA "a" "b" shaA (by decide)⟩

/-! ## C2 — branch lookup first, tag lookup only on branch failure -/

/-- C2: for every non-empty ref that is not a commit identifier,
`resolveRef` performs the branch lookup first; on branch success no tag
call is made; only when the branch lookup fails is the tag lookup
attempted, returning the tag's target identifier with the tag name as
canonical ref; when both fail the result is the ref-not-found error.  The
trace records the exact calls in order. -/
theorem resolveRef_branch_precedes_tag (env : Env) (owner repo ref : String)
    (h1 : ref ≠ "") (h2 : matchesSHAPattern ref = false) :
    resolveRef env owner repo ref =
      match env.branchSHA owner repo ref with
      | some sha => (Except.ok (sha, ref), [RemoteCall.branch owner repo ref])
      | none =>
        match env.tagSHA owner repo ref with
        | some sha =>
          (Except.ok (sha, ref), [RemoteCall.branch owner repo ref, RemoteCall.tagRef owner repo ref])
        | none =>
          (Except.error ("could not resolve ref " ++ ref ++ " as branch or tag"),
           [RemoteCall.branch owner repo ref, RemoteCall.tagRef owner repo ref]) := by
  unfold resolveRef
  rw [if_neg h1, if_neg (by simp [h2])]
  unfold getBranchCommitSHA getTagCommitSHA
  cases hb : env.branchSHA owner repo ref with
  | some sha => simp [hb]
  | none =>
    cases ht : env.tagSHA owner repo ref with
    | some sha => simp [hb, ht]
    | none => simp [hb, ht]

/-- Witness for C2: ref `v1.0` exists only as a tag; resolution succeeds
via the tag path with canonical ref `v1.0` after a failed branch call. -/
theorem resolveRef_branch_precedes_tag_witness :
    ("v1.0" ≠ "") ∧ matchesSHAPattern "v1.0" = false ∧
      resolveRef envTag "o" "r" "v1.0" =
        (Except.ok (shaA, "v1.0"),
         [RemoteCall.branch "o" "r" "v1.0", RemoteCall.tagRef "o" "r" "v1.0"]) :=
  ⟨by decide, by decide,
   resolveRef_branch_precedes_tag envTag "o" "r" "v1.0" (by decide) (by decide)⟩

/-! ## C8 — loading the lock file never fails the caller -/

/-- C8: for every storage state and unmarshal behaviour, loading the
Ledger returns a lock file (never an error): a missing file yields the
empty lock file silently; an unmarshal failure yields the empty lock file
with the warning flag — the partially filled target is discarded — and a
successful parse yields exactly the parsed lock file. -/
theorem loadLockFile_never_fails (unmarshal : String → Option String × LockFile)
    (file : Option String) :
    (file = none → loadLockFile unmarshal file = (emptyLockFile, false))
    ∧ (∀ s err lfPartial, file = some s → unmarshal s = (some err, lfPartial) →
        loadLockFile unmarshal file = (emptyLockFile, true))
    ∧ (∀ s lf, file = some s → unmarshal s = (none, lf) →
        loadLockFile unmarshal file = (lf, false)) := by
  refine ⟨?_, ?_, ?_⟩
  · intro h
    subst h
    rfl
  · intro s err lfPartial hf hu
    subst hf
    simp [loadLockFile, hu]
  · intro s lf hf hu
    subst hf
    simp [loadLockFile, hu]

/-- Witness for C8: a concrete malformed file whose unmarshal leaves a
partially filled lock file still loads as the empty lock file plus a
warning. -/
theorem loadLockFile_never_fails_witness :
    unmarshalBad "garbage" = (some "unexpected end of JSON input", ⟨[("k", ⟨"r", "s"⟩)]⟩) ∧
      loadLockFile unmarshalBad (some "garbage") = (emptyLockFile, true) :=
  ⟨rfl, (loadLockFile_never_fails unmarshalBad (some "garbage")).2.1 "garbage"
    "unexpected end of JSON input" ⟨[("k", ⟨"r", "s"⟩)]⟩ rfl rfl⟩

/-! ## C3 — get upserts into the Ledger and persists only on success -/

/-- C3: for every dependency spec that parses, a successful `get` upserts
into the Ledger an entry keyed by the repo URL whose ref field is the
requested ref (or the canonical ref when the requested ref was empty) and
whose sha field is exactly the identifier returned by the resolver, and
writes the serialized Ledger to disk; a resolution failure, and a download
or extraction failure, abort with the persisted Ledger unchanged (no write
occurs). -/
theorem handleGet_ledger_upsert (env : Env) (disk : Disk)
    (repoSpec repoURL ref owner repo : String)
    (hs : parseGitHubSpec repoSpec = Except.ok (repoURL, ref))
    (hu : parseGitHubURL repoURL = Except.ok (owner, repo)) :
    (∀ sha resolvedRef, (resolveRef env owner repo ref).1 = Except.ok (sha, resolvedRef) →
       8 ≤ sha.data.length → env.download owner repo sha repoURL = true →
       handleGet env disk repoSpec =
         ⟨CmdResult.completed,
          ⟨insertDep (loadLockFile env.unmarshal disk.current).1.dependencies repoURL
             ⟨(if ref = "" then resolvedRef else ref), sha⟩⟩,
          diskWrite disk (env.marshalIndent
            ⟨insertDep (loadLockFile env.unmarshal disk.current).1.dependencies repoURL
               ⟨(if ref = "" then resolvedRef else ref), sha⟩⟩),
          [(owner, repo, sha, repoURL)], []⟩)
    ∧ (∀ e, (resolveRef env owner repo ref).1 = Except.error e →
         handleGet env disk repoSpec = ⟨CmdResult.fatalExit, emptyLockFile, disk, [], []⟩)
    ∧ (∀ sha resolvedRef, (resolveRef env owner repo ref).1 = Except.ok (sha, resolvedRef) →
         8 ≤ sha.data.length → env.download owner repo sha repoURL = false →
         handleGet env disk repoSpec =
           ⟨CmdResult.fatalExit, emptyLockFile, disk, [(owner, repo, sha, repoURL)], []⟩) := by
  refine ⟨?_, ?_, ?_⟩
  · intro sha resolvedRef hres hlen hdl
    have hlen2 : 8 ≤ sha.length := hlen
    cases hl : loadLockFile env.unmarshal disk.current with
    | mk lf0 warn =>
      simp [handleGet, hs, hu, hres, goStringSlice, hlen, hlen2, downloadRepo, hdl, hl,
            saveLockFile]
  · intro e hres
    simp [handleGet, hs, hu, hres]
  · intro sha resolvedRef hres hlen hdl
    have hlen2 : 8 ≤ sha.length := hlen
    simp [handleGet, hs, hu, hres, goStringSlice, hlen, hlen2, downloadRepo, hdl]

/-- Witness for C3: a concrete successful `get github.com/a/b@main` run
writing the upserted, serialized Ledger. -/
theorem handleGet_ledger_upsert_witness :
    parseGitHubSpec "github.com/a/b@main" = Except.ok ("github.com/a/b", "main") ∧
    parseGitHubURL "github.com/a/b" = Except.ok ("a", "b") ∧
    (resolveRef envA "a" "b" "main").1 = Except.ok (shaA, "main") ∧
      handleGet envA diskA "github.com/a/b@main" =
        ⟨CmdResult.completed,
         ⟨insertDep (loadLockFile envA.unmarshal diskA.current).1.dependencies "github.com/a/b"
            ⟨(if "main" = "" then "main" else "main"), shaA⟩⟩,
         diskWrite diskA (envA.marshalIndent
           ⟨insertDep (loadLockFile envA.unmarshal diskA.current).1.dependencies "github.com/a/b"
              ⟨(if "main" = "" then "main" else "main"), shaA⟩⟩),
         [("a", "b", shaA, "github.com/a/b")], []⟩ :=
  ⟨by decide, by decide, by decide,
   (handleGet_ledger_upsert envA diskA "github.com/a/b@main" "github.com/a/b" "main" "a" "b"
      (by decide) (by decide)).1 shaA "main" (by decide) (by decide) (by decide)⟩

/-! ## C4 — install never mutates the Ledger -/

/-- Helper: the install loop accumulates exactly the per-entry downloads,
provided no recorded SHA is short enough to panic. -/
theorem installLoop_downloads (env : Env) (l : List (String × Dependency)) :
    ∀ dls reps, (∀ e ∈ l, 8 ≤ e.2.sha.length) →
      (installLoop env l dls reps).2.1 = dls ++ l.flatMap (installDownloadsOf env) := by
  induction l with
  | nil => intro dls reps _; simp [installLoop]
  | cons hd tl ih =>
    obtain ⟨url, dep⟩ := hd
    intro dls reps h
    have hhd : 8 ≤ dep.sha.length := h (url, dep) (List.mem_cons_self _ _)
    have htl : ∀ e ∈ tl, 8 ≤ e.2.sha.length := fun e he => h e (List.mem_cons_of_mem _ he)
    cases hpe : env.pathExists (getDepPath url) with
    | true =>
      simp [installLoop, checkDependency, hpe, goStringSlice, hhd, ih _ _ htl,
        installDownloadsOf]
    | false =>
      cases hpu : parseGitHubURL url with
      | error e =>
        simp [installLoop, checkDependency, hpe, goStringSlice, hhd, hpu, ih _ _ htl,
          installDownloadsOf]
      | ok pr =>
        obtain ⟨owner, repo⟩ := pr
        cases hdl : downloadRepo env owner repo dep.sha url <;>
          simp [installLoop, checkDependency, hpe, goStringSlice, hhd, hpu, hdl,
            ih _ _ htl, installDownloadsOf]

/-- C4: for every world and every Ledger content, `install` mutates
neither the in-memory lock file nor the persisted one (no write occurs),
and — absent the short-SHA panic — fetches exactly the entries whose
materialized path is missing, each at its recorded `sha` (never
re-resolving the ref). -/
theorem handleInstall_never_mutates (env : Env) (disk : Disk) :
    (handleInstall env disk).lockFile = (loadLockFile env.unmarshal disk.current).1
    ∧ (handleInstall env disk).disk = disk
    ∧ ((∀ e ∈ (loadLockFile env.unmarshal disk.current).1.dependencies, 8 ≤ e.2.sha.length) →
        (handleInstall env disk).downloads =
          (loadLockFile env.unmarshal disk.current).1.dependencies.flatMap
            (installDownloadsOf env)) := by
  cases hl : loadLockFile env.unmarshal disk.current with
  | mk lf0 warn =>
    by_cases hd : lf0.dependencies = []
    · refine ⟨?_, ?_, ?_⟩ <;> simp [handleInstall, hl, hd]
    · refine ⟨?_, ?_, ?_⟩
      · rcases h2 : installLoop env lf0.dependencies [] [] with ⟨r, dls, reps⟩
        simp [handleInstall, hl, hd, h2]
      · rcases h2 : installLoop env lf0.dependencies [] [] with ⟨r, dls, reps⟩
        simp [handleInstall, hl, hd, h2]
      · intro h
        rcases h2 : installLoop env lf0.dependencies [] [] with ⟨r, dls, reps⟩
        have hdl := installLoop_downloads env lf0.dependencies [] [] h
        rw [h2] at hdl
        simp only at hdl
        simp [handleInstall, hl, hd, h2, hdl]

/-- Witness for C4: a concrete install over `lockA` (path missing) leaves
the Ledger untouched on disk and in memory and fetches at the recorded
SHA. -/
theorem handleInstall_never_mutates_witness :
    (∀ e ∈ (loadLockFile envA.unmarshal diskA.current).1.dependencies, 8 ≤ e.2.sha.length) ∧
    (handleInstall envA diskA).lockFile = lockA ∧
    (handleInstall envA diskA).disk = diskA ∧
    (handleInstall envA diskA).downloads = [("a", "b", shaA, "github.com/a/b")] :=
  ⟨by decide,
   (handleInstall_never_mutates envA diskA).1.trans (by decide),
   (handleInstall_never_mutates envA diskA).2.1,
   ((handleInstall_never_mutates envA diskA).2.2 (by decide)).trans (by decide)⟩

/-! ## C10 — update with a target key missing from the Ledger -/

/-- Counterexample to C10 as stated: with an *empty* Ledger, `update`
with a target key that is not present reports "no dependencies", returns
normally (exit 0), and does not fail with the not-found error. -/
theorem handleUpdate_missing_key_empty_ledger :
    lookupDep (loadLockFile envEmptyLF.unmarshal diskA.current).1.dependencies
        "github.com/x/y" = none ∧
      handleUpdate envEmptyLF diskA "github.com/x/y" =
        ⟨CmdResult.completed, emptyLockFile, diskA, [], []⟩ := by
  exact ⟨by decide, by decide⟩

/-- C10 (amended): for every world whose loaded Ledger is *non-empty*, a
target key passed to `update` that is not present in the Ledger makes the
whole invocation fail with the fatal not-found exit, with no per-entry
processing and no Ledger write; with an empty Ledger, `update` instead
reports that no dependencies exist and exits normally. -/
theorem handleUpdate_missing_key_fatal (env : Env) (disk : Disk) (k : String)
    (hne : (loadLockFile env.unmarshal disk.current).1.dependencies ≠ [])
    (hk : k ≠ "")
    (hmiss : lookupDep (loadLockFile env.unmarshal disk.current).1.dependencies k = none) :
    handleUpdate env disk k =
      ⟨CmdResult.fatalExit, (loadLockFile env.unmarshal disk.current).1, disk, [], []⟩ := by
  cases hl : loadLockFile env.unmarshal disk.current with
  | mk lf0 warn =>
    rw [hl] at hne hmiss
    simp only at hne hmiss
    simp [handleUpdate, hl, hne, hk, hmiss]

/-- Witness for the amended C10: a missing key over the non-empty `lockA`
exits fatally without writing. -/
theorem handleUpdate_missing_key_fatal_witness :
    (loadLockFile envA.unmarshal diskA.current).1.dependencies ≠ [] ∧
    lookupDep (loadLockFile envA.unmarshal diskA.current).1.dependencies "github.com/x/y" = none ∧
      handleUpdate envA diskA "github.com/x/y" =
        ⟨CmdResult.fatalExit, lockA, diskA, [], []⟩ :=
  ⟨by decide, by decide,
   (handleUpdate_missing_key_fatal envA diskA "github.com/x/y" (by decide) (by decide)
      (by decide)).trans (by decide)⟩

/-! ## C9 — short recorded SHAs and the slicing panics -/

/-- Helper: `install` panics whenever some entry's recorded SHA is shorter
than eight characters (both loop branches slice `dep.SHA[:8]`). -/
theorem installLoop_short_panics (env : Env) (l : List (String × Dependency)) :
    ∀ dls reps, (∃ e ∈ l, e.2.sha.length < 8) →
      (installLoop env l dls reps).1 = CmdResult.panicked := by
  induction l with
  | nil => intro dls reps h; simp at h
  | cons hd tl ih =>
    obtain ⟨url, dep⟩ := hd
    intro dls reps h
    by_cases hshort : dep.sha.length < 8
    · have hns : ¬ 8 ≤ dep.sha.length := by omega
      cases hpe : env.pathExists (getDepPath url) <;>
        simp [installLoop, checkDependency, hpe, goStringSlice, hns]
    · obtain ⟨e, he, hlen⟩ := h
      rcases List.mem_cons.mp he with heq | htl
      · rw [heq] at hlen; exact absurd hlen hshort
      · have h8 : 8 ≤ dep.sha.length := by omega
        have ihh := fun dls reps => ih dls reps ⟨e, htl, hlen⟩
        cases hpe : env.pathExists (getDepPath url)
        · cases hpu : parseGitHubURL url with
          | error msg => simp [installLoop, checkDependency, hpe, goStringSlice, h8, hpu, ihh]
          | ok pr =>
            obtain ⟨owner, repo⟩ := pr
            cases hdl : downloadRepo env owner repo dep.sha url <;>
              simp [installLoop, checkDependency, hpe, goStringSlice, h8, hpu, hdl, ihh]
        · simp [installLoop, checkDependency, hpe, goStringSlice, h8, ihh]

/-- Helper: `check` panics whenever some entry has a short recorded SHA
*and* its materialized path exists (only the "ok" arm slices). -/
theorem checkLoop_short_panics (env : Env) (l : List (String × Dependency)) :
    ∀ allGood reps,
      (∃ e ∈ l, e.2.sha.length < 8 ∧ env.pathExists (getDepPath e.1) = true) →
      (checkLoop env l allGood reps).1 = CmdResult.panicked := by
  induction l with
  | nil => intro allGood reps h; simp at h
  | cons hd tl ih =>
    obtain ⟨url, dep⟩ := hd
    intro allGood reps h
    by_cases hcase : dep.sha.length < 8 ∧ env.pathExists (getDepPath url) = true
    · have hns : ¬ 8 ≤ dep.sha.length := by omega
      simp [checkLoop, checkDependency, hcase.2, goStringSlice, hns]
    · obtain ⟨e, he, hlen, hpe⟩ := h
      rcases List.mem_cons.mp he with heq | htl
      · rw [heq] at hlen hpe; exact absurd ⟨hlen, hpe⟩ hcase
      · have ihh := fun allGood reps => ih allGood reps ⟨e, htl, hlen, hpe⟩
        cases hpeh : env.pathExists (getDepPath url)
        · simp [checkLoop, checkDependency, hpeh, ihh]
        · have h8 : 8 ≤ dep.sha.length := by
            rcases Nat.lt_or_ge dep.sha.length 8 with hlt | hge
            · exact absurd ⟨hlt, hpeh⟩ hcase
            · exact hge
          simp [checkLoop, checkDependency, hpeh, goStringSlice, h8, ihh]

/-- Helper: an entry with a short recorded SHA whose ref still resolves
makes `updateDependency` panic, whatever the lock file state. -/
theorem updateDependency_short_none (env : Env) (url : String) (dep : Dependency)
    (hshort : dep.sha.length < 8) (hres : resolveOk env url dep.ref = true) :
    ∀ lf, updateDependency env url dep lf = none := by
  intro lf
  have hns : ¬ 8 ≤ dep.sha.length := by omega
  unfold resolveOk at hres
  cases hpu : parseGitHubURL url with
  | error msg => rw [hpu] at hres; simp at hres
  | ok pr =>
    obtain ⟨owner, repo⟩ := pr
    rw [hpu] at hres
    cases hr : (resolveRef env owner repo dep.ref).1 with
    | error msg => simp [hr] at hres
    | ok pr2 =>
      obtain ⟨currentSHA, currentRef⟩ := pr2
      by_cases heq : currentSHA = dep.sha <;>
        simp [updateDependency, hpu, hr, heq, goStringSlice, hns]

/-- Helper: the update loop panics when some targeted entry has a short
recorded SHA and a resolving ref. -/
theorem updateLoop_short_panics (env : Env) (l : List (String × Dependency)) :
    ∀ lf u reps dls,
      (∃ e ∈ l, e.2.sha.length < 8 ∧ resolveOk env e.1 e.2.ref = true) →
      updateLoop env l lf u reps dls = none := by
  induction l with
  | nil => intro lf u reps dls h; simp at h
  | cons hd tl ih =>
    obtain ⟨url, dep⟩ := hd
    intro lf u reps dls h
    cases hud : updateDependency env url dep lf with
    | none => simp [updateLoop, hud]
    | some r =>
      obtain ⟨c, lf', reps', dls'⟩ := r
      obtain ⟨e, he, hlen, hres⟩ := h
      rcases List.mem_cons.mp he with heq | htl
      · rw [heq] at hlen hres
        rw [updateDependency_short_none env url dep hlen hres lf] at hud
        cases hud
      · simp [updateLoop, hud, ih _ _ _ _ ⟨e, htl, hlen, hres⟩]

/-- Counterexample to C9 as stated, at three concrete runs over Ledgers
that parse and contain a short-SHA entry: `check` with the entry's path
missing completes without panicking and reports MISSING per key;
`update` with the ref failing to resolve completes without panicking and
reports the resolution error per key; `update` with an unparsable URL
completes without panicking and reports the parse error per key. -/
theorem handleCheck_short_sha_no_panic :
    (∃ e ∈ (loadLockFile envShortMiss.unmarshal diskA.current).1.dependencies,
        e.2.sha.length < 8) ∧
    handleCheck envShortMiss diskA =
      ⟨CmdResult.completed, lockShort, diskA, [], [Report.checkMissing "github.com/a/b"]⟩ ∧
    handleUpdate envShortNoRemote diskA "" =
      ⟨CmdResult.completed, lockShort, diskA, [],
       [Report.updResolveErr "github.com/a/b" "main"]⟩ ∧
    handleUpdate envShortBadURL diskA "" =
      ⟨CmdResult.completed, lockBadURL, diskA, [], [Report.updParseErr "bad-url"]⟩ :=
  ⟨⟨("github.com/a/b", ⟨"main", "abc"⟩), by decide, by decide⟩, by decide, by decide, by decide⟩

/-- Helper: an entry whose URL does not parse or whose ref does not
resolve makes `updateDependency` return normally — per-key failure
report, lock file untouched, no download, no slicing — whatever its
recorded SHA. -/
theorem updateDependency_fail_report (env : Env) (url : String) (dep : Dependency) (lf : LockFile)
    (h : resolveOk env url dep.ref = false) :
    updateDependency env url dep lf = some (false, lf, updateFailReport url dep.ref, []) := by
  unfold resolveOk at h
  cases hpu : parseGitHubURL url with
  | error msg => simp [updateDependency, updateFailReport, hpu]
  | ok pr =>
    obtain ⟨o, r⟩ := pr
    rw [hpu] at h
    cases hr : (resolveRef env o r dep.ref).1 with
    | error msg => simp [updateDependency, updateFailReport, hpu, hr]
    | ok pr2 => simp [hr] at h

/-- Helper: when every targeted entry fails to parse or resolve, the
update loop returns normally with exactly the per-key failure reports. -/
theorem updateLoop_all_fail (env : Env) (l : List (String × Dependency))
    (h : ∀ e ∈ l, resolveOk env e.1 e.2.ref = false) :
    ∀ lf reps dls, updateLoop env l lf false reps dls =
      some (false, lf, reps ++ l.flatMap (fun e => updateFailReport e.1 e.2.ref), dls) := by
  induction l with
  | nil => intro lf reps dls; simp [updateLoop]
  | cons hd tl ih =>
    obtain ⟨url, dep⟩ := hd
    intro lf reps dls
    have hhd : resolveOk env url dep.ref = false := h _ (List.mem_cons_self _ _)
    have htl : ∀ e ∈ tl, resolveOk env e.1 e.2.ref = false :=
      fun e he => h e (List.mem_cons_of_mem _ he)
    rw [updateLoop, updateDependency_fail_report env url dep lf hhd]
    simp [ih htl]

/-- C9 (amended): when the loaded Ledger contains an entry whose recorded
SHA is shorter than eight characters, `install` panics unconditionally on
reaching it; `check` panics when that entry's materialized path exists (a
missing path is reported per key without slicing); `update` panics when
the entry's URL parses and its ref resolves, and *only* then: an entry
whose URL does not parse or whose ref does not resolve is — whatever its
recorded SHA — reported per key without slicing, with the lock file left
untouched and the loop continuing, so a whole `update` over such entries
completes normally with exactly the per-key failure reports and no
write. -/
theorem short_sha_panics (env : Env) (disk : Disk) :
    ((∃ e ∈ (loadLockFile env.unmarshal disk.current).1.dependencies,
        e.2.sha.length < 8) →
      (handleInstall env disk).outcome = CmdResult.panicked)
    ∧ ((∃ e ∈ (loadLockFile env.unmarshal disk.current).1.dependencies,
        e.2.sha.length < 8 ∧ env.pathExists (getDepPath e.1) = true) →
      (handleCheck env disk).outcome = CmdResult.panicked)
    ∧ ((∃ e ∈ (loadLockFile env.unmarshal disk.current).1.dependencies,
        e.2.sha.length < 8 ∧ resolveOk env e.1 e.2.ref = true) →
      (handleUpdate env disk "").outcome = CmdResult.panicked)
    ∧ (∀ (url : String) (dep : Dependency) (lf : LockFile),
        resolveOk env url dep.ref = false →
        updateDependency env url dep lf = some (false, lf, updateFailReport url dep.ref, []))
    ∧ ((∀ e ∈ (loadLockFile env.unmarshal disk.current).1.dependencies,
          resolveOk env e.1 e.2.ref = false) →
        handleUpdate env disk "" =
          ⟨CmdResult.completed, (loadLockFile env.unmarshal disk.current).1, disk, [],
           (loadLockFile env.unmarshal disk.current).1.dependencies.flatMap
             (fun e => updateFailReport e.1 e.2.ref)⟩) := by
  cases hl : loadLockFile env.unmarshal disk.current with
  | mk lf0 warn =>
    refine ⟨?_, ?_, ?_, ?_, ?_⟩
    · intro h
      simp only at h
      obtain ⟨e, he, hx⟩ := h
      have hne : lf0.dependencies ≠ [] := List.ne_nil_of_mem he
      have hp := installLoop_short_panics env lf0.dependencies [] [] ⟨e, he, hx⟩
      rcases h2 : installLoop env lf0.dependencies [] [] with ⟨r, dls, reps⟩
      rw [h2] at hp
      simp only at hp
      simp [handleInstall, hl, hne, h2, hp]
    · intro h
      simp only at h
      obtain ⟨e, he, hx⟩ := h
      have hne : lf0.dependencies ≠ [] := List.ne_nil_of_mem he
      have hp := checkLoop_short_panics env lf0.dependencies true [] ⟨e, he, hx⟩
      rcases h2 : checkLoop env lf0.dependencies true [] with ⟨r, g, reps⟩
      rw [h2] at hp
      simp only at hp
      simp [handleCheck, hl, hne, h2, hp]
    · intro h
      simp only at h
      obtain ⟨e, he, hx⟩ := h
      have hne : lf0.dependencies ≠ [] := List.ne_nil_of_mem he
      have hp := updateLoop_short_panics env lf0.dependencies lf0 false [] [] ⟨e, he, hx⟩
      simp [handleUpdate, hl, hne, hp]
    · intro url dep lf h
      exact updateDependency_fail_report env url dep lf h
    · intro hall
      simp only at hall
      by_cases hd : lf0.dependencies = []
      · simp [handleUpdate, hl, hd]
      · have hloop := updateLoop_all_fail env lf0.dependencies hall lf0 [] []
        simp [handleUpdate, hl, hd, hloop]

/-- Witness for the amended C9: over `lockShort` with every path existing
and branch `main` resolving, all three commands panic; the same world's
`updateDependency` on a non-resolving ref reports per key without
panicking; and over `lockShort` with no resolving remote a whole `update`
completes with exactly the per-key resolution-failure report. -/
theorem short_sha_panics_witness :
    (∃ e ∈ (loadLockFile envShortAll.unmarshal diskA.current).1.dependencies,
        e.2.sha.length < 8) ∧
    (∃ e ∈ (loadLockFile envShortAll.unmarshal diskA.current).1.dependencies,
        e.2.sha.length < 8 ∧ envShortAll.pathExists (getDepPath e.1) = true) ∧
    (∃ e ∈ (loadLockFile envShortAll.unmarshal diskA.current).1.dependencies,
        e.2.sha.length < 8 ∧ resolveOk envShortAll e.1 e.2.ref = true) ∧
    (handleInstall envShortAll diskA).outcome = CmdResult.panicked ∧
    (handleCheck envShortAll diskA).outcome = CmdResult.panicked ∧
    (handleUpdate envShortAll diskA "").outcome = CmdResult.panicked ∧
    resolveOk envShortAll "github.com/a/b" "nope" = false ∧
    updateDependency envShortAll "github.com/a/b" ⟨"nope", "abc"⟩ lockShort =
      some (false, lockShort, [Report.updResolveErr "github.com/a/b" "nope"], []) ∧
    (∀ e ∈ (loadLockFile envShortNoRemote.unmarshal diskA.current).1.dependencies,
        resolveOk envShortNoRemote e.1 e.2.ref = false) ∧
    handleUpdate envShortNoRemote diskA "" =
      ⟨CmdResult.completed, lockShort, diskA, [],
       [Report.updResolveErr "github.com/a/b" "main"]⟩ :=
  ⟨⟨("github.com/a/b", ⟨"main", "abc"⟩), by decide, by decide⟩,
   ⟨("github.com/a/b", ⟨"main", "abc"⟩), by decide, by decide, by decide⟩,
   ⟨("github.com/a/b", ⟨"main", "abc"⟩), by decide, by decide, by decide⟩,
   (short_sha_panics envShortAll diskA).1
     ⟨("github.com/a/b", ⟨"main", "abc"⟩), by decide, by decide⟩,
   (short_sha_panics envShortAll diskA).2.1
     ⟨("github.com/a/b", ⟨"main", "abc"⟩), by decide, by decide, by decide⟩,
   (short_sha_panics envShortAll diskA).2.2.1
     ⟨("github.com/a/b", ⟨"main", "abc"⟩), by decide, by decide, by decide⟩,
   by decide,
   ((short_sha_panics envShortAll diskA).2.2.2.1 "github.com/a/b" ⟨"nope", "abc"⟩ lockShort
      (by decide)).trans (by rfl),
   by decide,
   ((short_sha_panics envShortNoRemote diskA).2.2.2.2 (by decide)).trans (by decide)⟩

/-! ## C5 — update persists at most once, and only on a real change -/

/-- Helper: an entry that does not change (in the `changedB` sense) can
make `updateDependency` panic or report, but never return `true`. -/
theorem updateDependency_not_changed (env : Env) (url : String) (dep : Dependency)
    (h : changedB env (url, dep) = false) :
    ∀ lf r, updateDependency env url dep lf = some r → r.1 = false := by
  intro lf r hud
  unfold changedB at h
  cases hpu : parseGitHubURL url with
  | error msg =>
    simp only [updateDependency, hpu] at hud
    rw [← Option.some.inj hud]
  | ok pr =>
    obtain ⟨owner, repo⟩ := pr
    rw [hpu] at h
    cases hr : (resolveRef env owner repo dep.ref).1 with
    | error msg =>
      simp only [updateDependency, hpu, hr] at hud
      rw [← Option.some.inj hud]
    | ok pr2 =>
      obtain ⟨currentSHA, currentRef⟩ := pr2
      simp only [hr] at h
      simp only [updateDependency, hpu, hr] at hud
      by_cases heq : currentSHA = dep.sha
      · rw [if_pos heq] at hud
        cases hsl : goStringSlice dep.sha 8 with
        | none => simp only [hsl] at hud; exact Option.noConfusion hud
        | some s8 =>
          simp only [hsl] at hud
          rw [← Option.some.inj hud]
      · have hdl : env.download owner repo currentSHA url = false := by
          simp [heq] at h
          exact h
        rw [if_neg heq] at hud
        cases hsl : goStringSlice dep.sha 8 with
        | none => simp only [hsl] at hud; exact Option.noConfusion hud
        | some cur8 =>
          simp only [hsl] at hud
          cases hsl2 : goStringSlice currentSHA 8 with
          | none => simp only [hsl2] at hud; exact Option.noConfusion hud
          | some new8 =>
            simp only [hsl2] at hud
            rw [show downloadRepo env owner repo currentSHA url = false from hdl] at hud
            simp only [Bool.false_eq_true, if_false] at hud
            rw [← Option.some.inj hud]

/-- Helper: a loop over entries none of which changes never reports an
update. -/
theorem updateLoop_not_changed (env : Env) (l : List (String × Dependency))
    (h : ∀ e ∈ l, changedB env e = false) :
    ∀ lf reps dls r, updateLoop env l lf false reps dls = some r → r.1 = false := by
  induction l with
  | nil =>
    intro lf reps dls r hl
    rw [updateLoop] at hl
    cases hl
    rfl
  | cons hd tl ih =>
    obtain ⟨url, dep⟩ := hd
    intro lf reps dls r hl
    have hhd : changedB env (url, dep) = false := h _ (List.mem_cons_self _ _)
    have htl : ∀ e ∈ tl, changedB env e = false := fun e he => h e (List.mem_cons_of_mem _ he)
    cases hud : updateDependency env url dep lf with
    | none => rw [updateLoop, hud] at hl; cases hl
    | some r0 =>
      obtain ⟨c, lf', reps', dls'⟩ := r0
      have hc : c = false := updateDependency_not_changed env url dep hhd lf _ hud
      subst hc
      rw [updateLoop, hud] at hl
      simp only [Bool.false_or] at hl
      exact ih htl _ _ _ _ hl

/-- Helper: on an unchanged remote with a sliceable SHA,
`updateDependency` reports exactly "no update available" and touches
nothing. -/
theorem updateDependency_unchanged (env : Env) (url : String) (dep : Dependency)
    (h : unchangedB env (url, dep) = true) :
    ∀ lf, updateDependency env url dep lf =
      some (false, lf, [Report.noUpdate url dep.ref (String.mk (dep.sha.data.take 8))], []) := by
  intro lf
  unfold unchangedB at h
  cases hpu : parseGitHubURL url with
  | error msg => rw [hpu] at h; simp at h
  | ok pr =>
    obtain ⟨owner, repo⟩ := pr
    rw [hpu] at h
    cases hr : (resolveRef env owner repo dep.ref).1 with
    | error msg => simp [hr] at h
    | ok pr2 =>
      obtain ⟨currentSHA, currentRef⟩ := pr2
      simp only [hr] at h
      simp only [Bool.and_eq_true, beq_iff_eq, decide_eq_true_eq] at h
      obtain ⟨heq, hlen⟩ := h
      simp [updateDependency, hpu, hr, heq, goStringSlice, hlen]

/-- Helper: a loop over entries all unchanged keeps the lock file, adds
one "no update available" report per entry, downloads nothing, and
reports no change. -/
theorem updateLoop_unchanged (env : Env) (l : List (String × Dependency))
    (h : ∀ e ∈ l, unchangedB env e = true) :
    ∀ lf reps dls, updateLoop env l lf false reps dls =
      some (false, lf,
        reps ++ l.map (fun e => Report.noUpdate e.1 e.2.ref (String.mk (e.2.sha.data.take 8))),
        dls) := by
  induction l with
  | nil => intro lf reps dls; simp [updateLoop]
  | cons hd tl ih =>
    obtain ⟨url, dep⟩ := hd
    intro lf reps dls
    have hhd : unchangedB env (url, dep) = true := h _ (List.mem_cons_self _ _)
    have htl : ∀ e ∈ tl, unchangedB env e = true := fun e he => h e (List.mem_cons_of_mem _ he)
    rw [updateLoop, updateDependency_unchanged env url dep hhd lf]
    simp [ih htl]

/-- C5: `update` persists the Ledger at most once per invocation; it does
not persist when no targeted entry actually changed; and when the remote
is unchanged for every targeted entry it reports "no update available"
per entry, performs no write, and is idempotent (running it again from
the resulting disk is the same invocation). -/
theorem handleUpdate_persist_once (env : Env) (disk : Disk) (s : String) :
    ((handleUpdate env disk s).disk.writes.length ≤ disk.writes.length + 1)
    ∧ ((∀ e ∈ targetsOf (loadLockFile env.unmarshal disk.current).1 s,
          changedB env e = false) →
        (handleUpdate env disk s).disk = disk)
    ∧ ((∀ e ∈ targetsOf (loadLockFile env.unmarshal disk.current).1 s,
          unchangedB env e = true) →
       (s ≠ "" → lookupDep (loadLockFile env.unmarshal disk.current).1.dependencies s ≠ none) →
       (handleUpdate env disk s).outcome = CmdResult.completed
       ∧ (handleUpdate env disk s).disk = disk
       ∧ (handleUpdate env disk s).reports =
           (targetsOf (loadLockFile env.unmarshal disk.current).1 s).map
             (fun e => Report.noUpdate e.1 e.2.ref (String.mk (e.2.sha.data.take 8)))
       ∧ handleUpdate env ((handleUpdate env disk s).disk) s = handleUpdate env disk s) := by
  cases hl : loadLockFile env.unmarshal disk.current with
  | mk lf0 warn =>
    refine ⟨?_, ?_, ?_⟩
    · -- at most one write
      by_cases hd : lf0.dependencies = []
      · simp [handleUpdate, hl, hd]
      · by_cases hs0 : s = ""
        · subst hs0
          cases hloop : updateLoop env lf0.dependencies lf0 false [] [] with
          | none => simp [handleUpdate, hl, hd, hloop]
          | some r =>
            obtain ⟨c, lf', reps, dls⟩ := r
            cases c <;> simp [handleUpdate, hl, hd, hloop, saveLockFile, diskWrite]
        · cases hlk : lookupDep lf0.dependencies s with
          | none => simp [handleUpdate, hl, hd, hs0, hlk]
          | some dep =>
            cases hud : updateDependency env s dep lf0 with
            | none => simp [handleUpdate, hl, hd, hs0, hlk, hud]
            | some r =>
              obtain ⟨c, lf', reps, dls⟩ := r
              cases c <;> simp [handleUpdate, hl, hd, hs0, hlk, hud, saveLockFile, diskWrite]
    · -- no write when nothing changed
      intro hch
      simp only at hch
      by_cases hd : lf0.dependencies = []
      · simp [handleUpdate, hl, hd]
      · by_cases hs0 : s = ""
        · subst hs0
          simp only [targetsOf, if_pos rfl] at hch
          cases hloop : updateLoop env lf0.dependencies lf0 false [] [] with
          | none => simp [handleUpdate, hl, hd, hloop]
          | some r =>
            obtain ⟨c, lf', reps, dls⟩ := r
            have hc : c = false :=
              updateLoop_not_changed env lf0.dependencies hch lf0 [] [] _ hloop
            subst hc
            simp [handleUpdate, hl, hd, hloop]
        · cases hlk : lookupDep lf0.dependencies s with
          | none => simp [handleUpdate, hl, hd, hs0, hlk]
          | some dep =>
            simp only [targetsOf, hs0, if_neg hs0, hlk] at hch
            have hc0 : changedB env (s, dep) = false := hch _ (List.mem_singleton.mpr rfl)
            cases hud : updateDependency env s dep lf0 with
            | none => simp [handleUpdate, hl, hd, hs0, hlk, hud]
            | some r =>
              obtain ⟨c, lf', reps, dls⟩ := r
              have hc : c = false := updateDependency_not_changed env s dep hc0 lf0 _ hud
              subst hc
              simp [handleUpdate, hl, hd, hs0, hlk, hud]
    · -- unchanged remote: per-entry "no update", no write, idempotent
      intro hun hlkh
      simp only at hun hlkh
      by_cases hd : lf0.dependencies = []
      · by_cases hs0 : s = ""
        · subst hs0
          have hH : handleUpdate env disk "" = ⟨CmdResult.completed, lf0, disk, [], []⟩ := by
            simp [handleUpdate, hl, hd]
          refine ⟨by rw [hH], by rw [hH], ?_, ?_⟩
          · rw [hH]
            simp [targetsOf, hd]
          · rw [hH]
            exact hH
        · exfalso
          exact hlkh hs0 (by simp [hd, lookupDep])
      · by_cases hs0 : s = ""
        · subst hs0
          simp only [targetsOf, if_pos rfl] at hun
          have hloop := updateLoop_unchanged env lf0.dependencies hun lf0 [] []
          have hH : handleUpdate env disk "" =
              ⟨CmdResult.completed, lf0, disk, [],
               lf0.dependencies.map
                 (fun e => Report.noUpdate e.1 e.2.ref (String.mk (e.2.sha.data.take 8)))⟩ := by
            simp [handleUpdate, hl, hd, hloop]
          refine ⟨by rw [hH], by rw [hH], ?_, ?_⟩
          · rw [hH]
            simp [targetsOf]
          · rw [hH]
            exact hH
        · cases hlk : lookupDep lf0.dependencies s with
          | none => exact absurd hlk (hlkh hs0)
          | some dep =>
            simp only [targetsOf, if_neg hs0, hlk] at hun
            have h1 : unchangedB env (s, dep) = true := hun _ (List.mem_singleton.mpr rfl)
            have hud := updateDependency_unchanged env s dep h1 lf0
            have hH : handleUpdate env disk s =
                ⟨CmdResult.completed, lf0, disk, [],
                 [Report.noUpdate s dep.ref (String.mk (dep.sha.data.take 8))]⟩ := by
              simp [handleUpdate, hl, hd, hs0, hlk, hud]
            refine ⟨by rw [hH], by rw [hH], ?_, ?_⟩
            · rw [hH]
              simp [targetsOf, hs0, hlk]
            · rw [hH]
              exact hH

/-- Witness for C5: over `lockA` with the remote branch still at the
recorded SHA, a full `update` completes, writes nothing, reports "no
update available" for the entry, and is idempotent. -/
theorem handleUpdate_persist_once_witness :
    (∀ e ∈ targetsOf (loadLockFile envA.unmarshal diskA.current).1 "",
        changedB envA e = false) ∧
    (∀ e ∈ targetsOf (loadLockFile envA.unmarshal diskA.current).1 "",
        unchangedB envA e = true) ∧
    (handleUpdate envA diskA "").disk.writes.length ≤ diskA.writes.length + 1 ∧
    (handleUpdate envA diskA "").outcome = CmdResult.completed ∧
    (handleUpdate envA diskA "").disk = diskA ∧
    (handleUpdate envA diskA "").reports =
      (targetsOf (loadLockFile envA.unmarshal diskA.current).1 "").map
        (fun e => Report.noUpdate e.1 e.2.ref (String.mk (e.2.sha.data.take 8))) ∧
    handleUpdate envA ((handleUpdate envA diskA "").disk) "" = handleUpdate envA diskA "" :=
  ⟨by decide, by decide,
   (handleUpdate_persist_once envA diskA "").1,
   ((handleUpdate_persist_once envA diskA "").2.2 (by decide) (fun h => absurd rfl h)).1,
   ((handleUpdate_persist_once envA diskA "").2.2 (by decide) (fun h => absurd rfl h)).2.1,
   ((handleUpdate_persist_once envA diskA "").2.2 (by decide) (fun h => absurd rfl h)).2.2.1,
   ((handleUpdate_persist_once envA diskA "").2.2 (by decide) (fun h => absurd rfl h)).2.2.2⟩

/-! ## C6 — extraction strips exactly the detected wrapper segment -/

/-- Helper: once a wrapper has been detected, the loop is the per-entry
action function mapped over the remaining entries. -/
theorem extractLoop_eq_flatMap (destPath rd : String) (h : rd ≠ "") :
    ∀ l, extractLoop destPath rd l = l.flatMap (entryActions destPath rd) := by
  intro l
  induction l with
  | nil => simp [extractLoop]
  | cons header tl ih =>
    simp only [extractLoop, entryActions, List.flatMap_cons]
    have hd0 : (decide (rd = "")) = false := by simp [h]
    simp only [hd0, Bool.false_and, Bool.false_eq_true, if_false]
    split_ifs <;> simp [ih]

/-- Helper: entries before the first slash-containing entry produce no
actions and leave the wrapper undetected. -/
theorem extractLoop_skip_preamble (destPath : String) :
    ∀ (pre rest : List TarHeader), (∀ hd ∈ pre, strContainsChar hd.name '/' = false) →
      extractLoop destPath "" (pre ++ rest) = extractLoop destPath "" rest := by
  intro pre
  induction pre with
  | nil => intro rest _; rfl
  | cons hd tl ih =>
    intro rest h
    have hh : strContainsChar hd.name '/' = false := h hd (List.mem_cons_self _ _)
    have ht : ∀ x ∈ tl, strContainsChar x.name '/' = false :=
      fun x hx => h x (List.mem_cons_of_mem _ hx)
    simp only [List.cons_append, extractLoop]
    split_ifs <;> simp_all [ih _ ht]

/-- Helper: the first slash-containing entry, when its first segment has a
hyphen and it is a real (non-metadata) entry, fixes the wrapper for the
whole rest of the archive. -/
theorem extractLoop_detect (destPath : String) (e : TarHeader) (post : List TarHeader)
    (p : String) (ps : List String)
    (hslash : strContainsChar e.name '/' = true)
    (hsplit : strSplitOnChar e.name '/' = p :: ps)
    (hdash : strContainsChar p '-' = true)
    (hpax : e.typeflag ≠ TypeFlag.xGlobalHeader) :
    extractLoop destPath "" (e :: post) =
      entryActions destPath (p ++ "/") e ++ extractLoop destPath (p ++ "/") post := by
  have hname : e.name ≠ "pax_global_header" := by
    intro hn
    rw [hn] at hslash
    exact absurd hslash (by decide)
  simp only [extractLoop, entryActions, hsplit]
  simp only [hpax, hname, hslash, hdash, decide_True, decide_False, Bool.false_or,
    Bool.true_and, Bool.and_true, if_true, if_false]
  split_ifs <;> simp_all

/-- C6: for every archive whose first slash-containing entry is a real
entry with a hyphen in its first path segment `p`, extraction emits
exactly: the destination replacement, then for each entry from that point
its actions with the wrapper `p ++ "/"` stripped; entries not under the
wrapper produce nothing; the wrapper directory's own entry (with or
without the trailing separator) produces nothing.  In particular, the
spec's example archive `[repo-abc123/src/a.txt, repo-abc123/]` extracted
to `/out` yields exactly the file `/out/src/a.txt` (under dirs `/out`,
`/out/src`) and no `/out/repo-abc123` directory. -/
theorem extractTarball_strips_wrapper (destPath : String) (pre post : List TarHeader)
    (e : TarHeader) (p : String) (ps : List String)
    (hpre : ∀ hd ∈ pre, strContainsChar hd.name '/' = false)
    (hslash : strContainsChar e.name '/' = true)
    (hsplit : strSplitOnChar e.name '/' = p :: ps)
    (hdash : strContainsChar p '-' = true)
    (hpax : e.typeflag ≠ TypeFlag.xGlobalHeader) :
    (extractTarball (pre ++ e :: post) destPath =
      FSAction.removeAll destPath :: FSAction.mkdirAll destPath 0o755 ::
        (e :: post).flatMap (entryActions destPath (p ++ "/")))
    ∧ (∀ hd : TarHeader, strStartsWith hd.name (p ++ "/") = false →
        entryActions destPath (p ++ "/") hd = [])
    ∧ (∀ tf m c, entryActions destPath (p ++ "/") ⟨p ++ "/", tf, m, c⟩ = [])
    ∧ (∀ m c, entryActions destPath (p ++ "/") ⟨p, TypeFlag.dir, m, c⟩ = [])
    ∧ (applyActions FS.empty (extractTarball
        [⟨"repo-abc123/src/a.txt", TypeFlag.reg, 420, "hello"⟩,
         ⟨"repo-abc123/", TypeFlag.dir, 493, ""⟩] "/out") =
        ⟨["/out", "/out/src"], [("/out/src/a.txt", "hello", 420)]⟩) := by
  have hdata : (p ++ "/").data = p.data ++ ['/'] := by
    rw [String.data_append]
  have hrdne : (p ++ "/") ≠ "" := by
    intro hh
    have h2 := congrArg String.data hh
    rw [hdata] at h2
    simp at h2
  refine ⟨?_, ?_, ?_, ?_, ?_⟩
  · rw [extractTarball, extractLoop_skip_preamble destPath pre (e :: post) hpre,
      extractLoop_detect destPath e post p ps hslash hsplit hdash hpax,
      extractLoop_eq_flatMap destPath (p ++ "/") hrdne post, List.flatMap_cons]
  · intro hd hns
    unfold entryActions
    split_ifs with h1 h2 h3 h4 <;> try rfl
    all_goals exact absurd (by simp [hns]) h3
  · intro tf m c
    have hself : strStartsWith (p ++ "/") (p ++ "/") = true :=
      List.isPrefixOf_iff_prefix.mpr (List.prefix_refl _)
    have htrim : strTrimLeading (p ++ "/") (p ++ "/") = "" := by
      unfold strTrimLeading
      rw [if_pos (List.isPrefixOf_iff_prefix.mpr (List.prefix_refl _)), List.drop_length]
    simp [entryActions, hself, htrim]
  · intro m c
    have hdl : dropLastStr (p ++ "/") = p := by
      rw [dropLastStr, hdata, List.dropLast_concat]
    by_cases hp : p = "pax_global_header"
    · simp [entryActions, hp]
    · simp [entryActions, hp, hdl, hrdne]
  · decide

/-- Witness for C6, instantiated at the spec's own example archive: the
hypotheses hold concretely and the emitted actions are the flattened
per-entry actions under wrapper `repo-abc123/`. -/
theorem extractTarball_strips_wrapper_witness :
    strContainsChar "repo-abc123/src/a.txt" '/' = true ∧
    strSplitOnChar "repo-abc123/src/a.txt" '/' = ["repo-abc123", "src", "a.txt"] ∧
    strContainsChar "repo-abc123" '-' = true ∧
    extractTarball
        [⟨"repo-abc123/src/a.txt", TypeFlag.reg, 420, "hello"⟩,
         ⟨"repo-abc123/", TypeFlag.dir, 493, ""⟩] "/out" =
      FSAction.removeAll "/out" :: FSAction.mkdirAll "/out" 0o755 ::
        ([⟨"repo-abc123/src/a.txt", TypeFlag.reg, 420, "hello"⟩,
          (⟨"repo-abc123/", TypeFlag.dir, 493, ""⟩ : TarHeader)]).flatMap
          (entryActions "/out" ("repo-abc123" ++ "/")) :=
  ⟨by decide, by decide, by decide,
   (extractTarball_strips_wrapper "/out" []
      [⟨"repo-abc123/", TypeFlag.dir, 493, ""⟩]
      ⟨"repo-abc123/src/a.txt", TypeFlag.reg, 420, "hello"⟩
      "repo-abc123" ["src", "a.txt"]
      (by intro hd hmem; cases hmem) (by decide) (by decide) (by decide) (by decide)).1⟩

/-! ## C7 — regular-file writes do not truncate an existing file -/

/-- C7 failing input: an archive carrying two regular-file entries for the
same path (`ABCDEF` then `XY`).  The source opens the target with
`O_CREATE|O_WRONLY` and no `O_TRUNC`, so the second write leaves the first
write's tail in place: the resulting file holds `XYCDEF`, not the entry's
exact content `XY` — contradicting the create/truncate behaviour the claim
(and the spec) state for a pre-existing file. -/
theorem extractTarball_no_truncate :
    applyActions FS.empty (extractTarball
      [⟨"repo-x1/a.txt", TypeFlag.reg, 420, "ABCDEF"⟩,
       ⟨"repo-x1/a.txt", TypeFlag.reg, 420, "XY"⟩] "/out") =
      ⟨["/out"], [("/out/a.txt", "XYCDEF", 420)]⟩ ∧
    ("XYCDEF" : String) ≠ "XY" :=
  ⟨by decide, by decide⟩
